import Mathlib

/-!
Verification of the polynomial-multiplication example of the rns-tpu
repository (src/examples/tpu_matrix_mul.rs).

A `Polynomial` is its coefficient vector, lowest degree first; the Rust
code stores coefficients as `u64`, which we embed as `Nat` values (well
formed when `< 2^64`), with the wrap-around of `u64` arithmetic made
explicit as reduction modulo `2^64` where the source can overflow.

The accelerated path converts everything to `f32`, multiplies on the
device and casts back with `as u64`.  The backend matrix multiply is
embedded as exact integer arithmetic: for values within the exact-integer
range of `f32` (at most `2^24` after accumulation) every cast, every
product and every partial sum of the float pipeline is exact, so the
embedding computes exactly the program's numbers there — and every
value-dependent theorem about this path below carries that `2^24` bound
as a hypothesis (value-independent facts such as lengths and the absence
of error paths need no bound).  The final `f32 as u64` cast is Rust's
saturating cast; on an exact non-negative integer value it clamps to
`[0, 2^64 - 1]` (`u64_saturate` below); its behaviour on an arbitrary
(rational-valued) float is modelled separately by `f32_as_u64`.
Backend/environment failures (Metal device unavailable, allocation
failure) are outside the model; the tensor shape checks of the source
(`from_vec`, `matmul`, `reshape`) can never fail for the shapes the
source builds, so the only failure modelled is the `usize` underflow of
`n + m - 1` when both inputs are empty, which aborts the program and is
modelled as `none`.
-/

/-- Modulus of `u64` arithmetic. -/
def U64_MOD : Nat := 2 ^ 64

/-- Largest magnitude up to which every integer is exactly representable
in `f32` (the bound named by the spec for single-precision accumulation). -/
def f32SafeBound : Nat := 2 ^ 24

/-- Naive O(n²) polynomial multiplication (`Polynomial::multiply_naive`).
The Rust code allocates `vec![0u64; n + m - 1]` and runs
`result[i + j] += a * b` over all pairs; coefficient `k` of the result is
therefore the sum of `a[i] * b[k - i]` over the in-range indices.  The
`u64` products and the running sums wrap modulo `2^64`; since reduction
commutes with addition, the final cell value is the full sum reduced
once, which is how we write it.  When `n = m = 0` the length computation
`n + m - 1` underflows `usize` and the program aborts: modelled as
`none`. -/
def multiply_naive (a b : List Nat) : Option (List Nat) :=
  if a.length + b.length = 0 then none
  else
    some ((List.range (a.length + b.length - 1)).map fun k =>
      ((List.range a.length).map fun i =>
        a.getD i 0 * (if i ≤ k then b.getD (k - i) 0 else 0)).sum % U64_MOD)

/-- Toeplitz matrix of a polynomial (`Polynomial::to_multiplication_matrix`).
The Rust code allocates a `result_degree × n` zero matrix and sets
`matrix[i][j] = coefficients[i - j]` exactly when `i >= j && (i - j) < n`;
row `i`, column `j` of the result is written here as that conditional.
Note the function is total: the source returns a plain `Vec<Vec<u64>>`
and contains no dimension check and no error path. -/
def to_multiplication_matrix (coefficients : List Nat) (result_degree : Nat) :
    List (List Nat) :=
  (List.range result_degree).map fun i =>
    (List.range coefficients.length).map fun j =>
      if j ≤ i ∧ i - j < coefficients.length then coefficients.getD (i - j) 0
      else 0

/-- Rust's saturating `f32 as u64` cast restricted to an exact
non-negative integer float value: values at least `2^64` clamp to
`u64::MAX`, everything else is preserved. -/
def u64_saturate (x : Nat) : Nat := min x (U64_MOD - 1)

/-- Matrix–vector product, row `i` of the result being the dot product of
row `i` with the vector (the `matrix_tensor.matmul(&b_tensor)` step,
embedded over exact integers). -/
def matvec (matrix : List (List Nat)) (v : List Nat) : List Nat :=
  matrix.map fun row => (List.zipWith (· * ·) row v).sum

/-- Accelerated polynomial multiplication
(`Polynomial::multiply_matrix_with_device`).  Mirrors the source step by
step: `result_degree = n + m - 1` (underflow at `n = m = 0` modelled as
`none`), the Toeplitz matrix of `self`, the vector of `other` padded with
zeros — and silently truncated — to length `n`
(`vec_b[i] = other[i]` only for `i < n`), the backend matrix multiply,
and the `as u64` cast on each output value. -/
def multiply_matrix_with_device (a b : List Nat) : Option (List Nat) :=
  if a.length + b.length = 0 then none
  else
    let result_degree := a.length + b.length - 1
    let matrix := to_multiplication_matrix a result_degree
    let vec_b := (List.range a.length).map fun i => b.getD i 0
    some ((matvec matrix vec_b).map u64_saturate)

/-- Binary exponent of the `f64` rounding grid at magnitude `n`: the
smallest `e` with `n < 2^(53 + e)`, i.e. the number of low bits that do
not fit in the 53-bit significand of a double.  For the magnitudes this
development applies it to (at most `2^64`) the search range `0..11`
suffices: `2^64` itself falls through to `0` and is a power of two,
hence exact anyway. -/
def f64_exp (n : Nat) : Nat :=
  (((List.range 12).filter fun e => n < 2 ^ (53 + e))).headD 0

/-- Value of Rust's `u64 as f64` cast (IEEE round to nearest, ties to
even): a natural number is rounded to the nearest multiple of
`2^(f64_exp n)`, with a tie going to the neighbour with even quotient.
Exact below `2^53`.  The same function gives the correctly rounded `f64`
result of subtracting two already-cast values (an integer of magnitude
at most `2^64`). -/
def u64_as_f64 (n : Nat) : Nat :=
  if f64_exp n = 0 then n
  else
    (if 2 ^ (f64_exp n - 1) < n % 2 ^ f64_exp n ∨
        (n % 2 ^ f64_exp n = 2 ^ (f64_exp n - 1) ∧ (n / 2 ^ f64_exp n) % 2 = 1)
      then n / 2 ^ f64_exp n + 1
      else n / 2 ^ f64_exp n) * 2 ^ f64_exp n

/-- Approximate coefficient-wise equality (`Polynomial::approx_eq`).
The source walks `0 .. max(len a, len b)`, reads missing coefficients as
`0` (`unwrap_or(0)`), and returns `false` as soon as
`(a as f64 - b as f64).abs() > epsilon`.  Both `u64 → f64` casts are
modelled by `u64_as_f64`; the subtraction of the two cast values is an
integer of magnitude at most `2^64` and IEEE subtraction returns its
correctly rounded value, which (absolute value taken first, as rounding
is sign-symmetric) is again `u64_as_f64`; the final comparison of two
exact values against `epsilon` (a rational, covering every `f64`
epsilon) is exact. -/
def approx_eq (a b : List Nat) (epsilon : ℚ) : Bool :=
  (List.range (max a.length b.length)).all fun i =>
    decide
      ((u64_as_f64 ((u64_as_f64 (a.getD i 0) : Int) -
        (u64_as_f64 (b.getD i 0) : Int)).natAbs : ℚ) ≤ epsilon)

/-- True (exact, unbounded) convolution coefficient
`(a * b)[k] = Σ_{i + j = k} a[i] * b[j]` — the mathematical reference the
spec means by "true convolution values". -/
def conv_coeff (a b : List Nat) (k : Nat) : Nat :=
  ((List.range (k + 1)).map fun i => a.getD i 0 * b.getD (k - i) 0).sum

/-- Rust's saturating `f32 as u64` cast on the exact (rational) value of
the float: negative values go to `0`, values at least `2^64` clamp to
`u64::MAX`, and everything else is truncated toward zero.  (`NaN`, which
also casts to `0`, has no rational value and is outside the model.) -/
def f32_as_u64 (v : ℚ) : Nat :=
  if v < 0 then 0 else min (Int.toNat ⌊v⌋) (U64_MOD - 1)

/-- Decode step as the spec words it ("round each output value to the
nearest non-negative integer"), stated for comparison with the cast the
source actually performs. -/
def spec_round_nearest (v : ℚ) : Nat := Int.toNat ⌊v + 1 / 2⌋

/-- Toeplitz entry as the spec words it, with the index arithmetic over
`ℤ`: entry `(i, j)` is `poly[i - j]` when `0 ≤ i - j < len poly`, else
`0`. -/
def toeplitz_entry_spec (poly : List Nat) (i j : Nat) : Nat :=
  if 0 ≤ (i : Int) - (j : Int) ∧ (i : Int) - (j : Int) < poly.length then
    poly.getD (i - j) 0
  else 0

/-! Helper lemmas. -/

lemma sum_map_range_eq (f : Nat → Nat) (n : Nat) :
    ((List.range n).map f).sum = ∑ i ∈ Finset.range n, f i := by
  induction n with
  | zero => simp
  | succ n ih => simp [List.range_succ, Finset.sum_range_succ, ih]

lemma zipWith_mul_map (f g : Nat → Nat) (l : List Nat) :
    List.zipWith (· * ·) (l.map f) (l.map g) = l.map fun x => f x * g x := by
  induction l with
  | nil => rfl
  | cons x l ih => simp [ih]

lemma getD_map_range {α : Type} (f : Nat → α) (d : α) (n i : Nat) :
    ((List.range n).map f).getD i d = if i < n then f i else d := by
  by_cases h : i < n
  · rw [List.getD_eq_getElem _ _ (by simpa using h)]
    simp [h]
  · rw [List.getD_eq_default _ _ (by simpa using Nat.le_of_not_lt h)]
    simp [h]

lemma map_range_getD (l : List Nat) :
    (List.range l.length).map (fun i => l.getD i 0) = l := by
  apply List.ext_getElem
  · simp
  · intro i h1 h2
    simp [List.getD_eq_getElem _ _ h2, List.getElem?_eq_getElem h2]

lemma f64_exp_eq_zero {n : Nat} (h : n < 2 ^ 53) : f64_exp n = 0 := by
  unfold f64_exp
  have hr : List.range 12 = 0 :: [1, 2, 3, 4, 5, 6, 7, 8, 9, 10, 11] := rfl
  have h1 : n < 9007199254740992 := by omega
  rw [hr, List.filter_cons]
  simp [h1]

/-- Below `2^53` the `u64 as f64` cast is exact. -/
lemma u64_as_f64_of_lt {n : Nat} (h : n < 2 ^ 53) : u64_as_f64 n = n := by
  unfold u64_as_f64
  rw [if_pos (f64_exp_eq_zero h)]

lemma getD_lt_of_forall {a : List Nat} {B : Nat} (hB : 0 < B)
    (ha : ∀ c ∈ a, c < B) (i : Nat) : a.getD i 0 < B := by
  by_cases h : i < a.length
  · refine ha _ ?_
    rw [List.getD_eq_getElem _ _ h]
    exact List.getElem_mem h
  · rw [List.getD_eq_default _ _ (Nat.le_of_not_lt h)]
    exact hB

/-- The coefficient produced by the naive double loop is the true
convolution coefficient reduced modulo nothing: the guarded sum over the
indices of `a` equals `conv_coeff`. -/
lemma naive_coeff_eq_conv (a b : List Nat) (k : Nat) :
    ((List.range a.length).map fun i =>
      a.getD i 0 * (if i ≤ k then b.getD (k - i) 0 else 0)).sum =
    conv_coeff a b k := by
  unfold conv_coeff
  rw [sum_map_range_eq, sum_map_range_eq]
  have h1 :
      ∑ i ∈ Finset.range a.length,
        a.getD i 0 * (if i ≤ k then b.getD (k - i) 0 else 0) =
      ∑ i ∈ Finset.range (max a.length (k + 1)),
        a.getD i 0 * (if i ≤ k then b.getD (k - i) 0 else 0) := by
    apply Finset.sum_subset (Finset.range_subset.mpr (le_max_left _ _))
    intro x _ hxn
    have hx : a.length ≤ x := by
      simp only [Finset.mem_range, not_lt] at hxn
      exact hxn
    rw [List.getD_eq_default _ _ hx, zero_mul]
  have h2a :
      ∑ i ∈ Finset.range (k + 1), a.getD i 0 * b.getD (k - i) 0 =
      ∑ i ∈ Finset.range (k + 1),
        a.getD i 0 * (if i ≤ k then b.getD (k - i) 0 else 0) := by
    refine Finset.sum_congr rfl fun x hx => ?_
    have hxk : x ≤ k := Nat.lt_succ_iff.mp (Finset.mem_range.mp hx)
    rw [if_pos hxk]
  have h2b :
      ∑ i ∈ Finset.range (k + 1),
        a.getD i 0 * (if i ≤ k then b.getD (k - i) 0 else 0) =
      ∑ i ∈ Finset.range (max a.length (k + 1)),
        a.getD i 0 * (if i ≤ k then b.getD (k - i) 0 else 0) := by
    apply Finset.sum_subset (Finset.range_subset.mpr (le_max_right _ _))
    intro x _ hxn
    have hxk : ¬ x ≤ k := by
      simp only [Finset.mem_range, not_lt] at hxn
      omega
    rw [if_neg hxk, mul_zero]
  rw [h1, h2a, h2b]

/-- Convolution is symmetric in its two arguments. -/
lemma conv_coeff_comm (a b : List Nat) (k : Nat) :
    conv_coeff a b k = conv_coeff b a k := by
  unfold conv_coeff
  rw [sum_map_range_eq, sum_map_range_eq, ← Finset.sum_range_reflect]
  refine Finset.sum_congr rfl fun j hj => ?_
  have hjk : j ≤ k := Nat.lt_succ_iff.mp (Finset.mem_range.mp hj)
  have h1 : k + 1 - 1 - j = k - j := by omega
  rw [h1, Nat.sub_sub_self hjk, mul_comm]

/-- Beyond the convolution length every true coefficient vanishes. -/
lemma conv_coeff_eq_zero (a b : List Nat) (k : Nat)
    (h : a.length + b.length ≤ k + 1) : conv_coeff a b k = 0 := by
  unfold conv_coeff
  rw [sum_map_range_eq]
  refine Finset.sum_eq_zero fun i hi => ?_
  by_cases hia : i < a.length
  · have hb : b.length ≤ k - i := by omega
    rw [List.getD_eq_default _ _ hb, mul_zero]
  · rw [List.getD_eq_default _ _ (Nat.le_of_not_lt hia), zero_mul]

/-- Multiplying by the constant polynomial `[1]` convolves to the
original coefficients. -/
lemma conv_coeff_one (a : List Nat) (k : Nat) :
    conv_coeff a [1] k = a.getD k 0 := by
  unfold conv_coeff
  rw [sum_map_range_eq]
  have h : ∀ i ∈ Finset.range (k + 1),
      a.getD i 0 * ([1] : List Nat).getD (k - i) 0 =
      if i = k then a.getD i 0 else 0 := by
    intro i hi
    by_cases he : i = k
    · subst he
      simp
    · have hik : i ≤ k := Nat.lt_succ_iff.mp (Finset.mem_range.mp hi)
      have hne : ([1] : List Nat).length ≤ k - i := by
        simp only [List.length_singleton]
        omega
      rw [List.getD_eq_default _ _ hne, mul_zero, if_neg he]
  rw [Finset.sum_congr rfl h,
    Finset.sum_ite_eq' (Finset.range (k + 1)) k fun i => a.getD i 0]
  simp

/-- The dot product of Toeplitz row `k` with the padded-and-truncated
vector of `b` is the true convolution coefficient, provided `b` is not
longer than `a` (otherwise the truncation loses the excess terms of
`b`). -/
lemma device_coeff_eq_conv (a b : List Nat) (hm : b.length ≤ a.length)
    (k : Nat) :
    (List.zipWith (· * ·)
      ((List.range a.length).map fun j =>
        if j ≤ k ∧ k - j < a.length then a.getD (k - j) 0 else 0)
      ((List.range a.length).map fun j => b.getD j 0)).sum =
    conv_coeff a b k := by
  rw [zipWith_mul_map, sum_map_range_eq]
  have hstep1 : ∀ j : Nat,
      (if j ≤ k ∧ k - j < a.length then a.getD (k - j) 0 else 0) *
        b.getD j 0 =
      (if j ≤ k then a.getD (k - j) 0 else 0) * b.getD j 0 := by
    intro j
    by_cases hjk : j ≤ k
    · by_cases hlt : k - j < a.length
      · rw [if_pos ⟨hjk, hlt⟩, if_pos hjk]
      · rw [if_neg (fun hc => hlt hc.2), if_pos hjk,
          List.getD_eq_default _ _ (Nat.le_of_not_lt hlt)]
    · rw [if_neg (fun hc => hjk hc.1), if_neg hjk]
  simp only [hstep1]
  have h1 :
      ∑ j ∈ Finset.range a.length,
        (if j ≤ k then a.getD (k - j) 0 else 0) * b.getD j 0 =
      ∑ j ∈ Finset.range (max a.length (k + 1)),
        (if j ≤ k then a.getD (k - j) 0 else 0) * b.getD j 0 := by
    apply Finset.sum_subset (Finset.range_subset.mpr (le_max_left _ _))
    intro x _ hxn
    have hx : a.length ≤ x := by
      simp only [Finset.mem_range, not_lt] at hxn
      exact hxn
    rw [List.getD_eq_default _ _ (le_trans hm hx), mul_zero]
  rw [h1, conv_coeff_comm]
  unfold conv_coeff
  rw [sum_map_range_eq]
  have h2a :
      ∑ j ∈ Finset.range (k + 1), b.getD j 0 * a.getD (k - j) 0 =
      ∑ j ∈ Finset.range (k + 1),
        (if j ≤ k then a.getD (k - j) 0 else 0) * b.getD j 0 := by
    refine Finset.sum_congr rfl fun j hj => ?_
    have hjk : j ≤ k := Nat.lt_succ_iff.mp (Finset.mem_range.mp hj)
    rw [if_pos hjk, mul_comm]
  have h2b :
      ∑ j ∈ Finset.range (k + 1),
        (if j ≤ k then a.getD (k - j) 0 else 0) * b.getD j 0 =
      ∑ j ∈ Finset.range (max a.length (k + 1)),
        (if j ≤ k then a.getD (k - j) 0 else 0) * b.getD j 0 := by
    apply Finset.sum_subset (Finset.range_subset.mpr (le_max_right _ _))
    intro x _ hxn
    have hxk : ¬ x ≤ k := by
      simp only [Finset.mem_range, not_lt] at hxn
      omega
    rw [if_neg hxk, zero_mul]
  rw [h2a, h2b]

/-- Closed form of the accelerated multiply when `b` is not longer than
`a`: every output coefficient is the saturating cast of the true
convolution coefficient. -/
lemma device_eq_conv (a b : List Nat) (hm : b.length ≤ a.length) :
    multiply_matrix_with_device a b =
      if a.length + b.length = 0 then none
      else
        some ((List.range (a.length + b.length - 1)).map fun k =>
          u64_saturate (conv_coeff a b k)) := by
  unfold multiply_matrix_with_device matvec to_multiplication_matrix
  by_cases h : a.length + b.length = 0
  · rw [if_pos h, if_pos h]
  · rw [if_neg h, if_neg h]
    simp only [List.map_map]
    refine congrArg some (List.map_congr_left fun k _ => ?_)
    simp only [Function.comp]
    rw [device_coeff_eq_conv a b hm k]

/-- Closed form of the naive multiply: every output coefficient is the
true convolution coefficient reduced modulo `2^64`. -/
lemma naive_eq_conv (a b : List Nat) :
    multiply_naive a b =
      if a.length + b.length = 0 then none
      else
        some ((List.range (a.length + b.length - 1)).map fun k =>
          conv_coeff a b k % U64_MOD) := by
  unfold multiply_naive
  by_cases h : a.length + b.length = 0
  · rw [if_pos h, if_pos h]
  · rw [if_neg h, if_neg h]
    refine congrArg some (List.map_congr_left fun k _ => ?_)
    rw [naive_coeff_eq_conv]

example : multiply_naive [1, 2, 3, 4] [5, 6, 7] = some [5, 16, 34, 52, 45, 28] := by
  decide

example : multiply_matrix_with_device [1, 2, 3, 4] [5, 6, 7] =
    some [5, 16, 34, 52, 45, 28] := by decide

example : to_multiplication_matrix [1, 2, 3] 5 =
    [[1, 0, 0], [2, 1, 0], [3, 2, 1], [0, 3, 2], [0, 0, 3]] := by decide

example : u64_as_f64 9007199254740995 = 9007199254740996 := by decide

example : u64_as_f64 18446744073709551615 = 18446744073709551616 := by decide

/-! Claim theorems. -/

/-- C1 counterexample: at A = [1], B = [0, 1] every true convolution
coefficient (0 and 1) is within the exact-integer range of the backend,
yet the accelerated multiply returns [0, 0] while the naive multiply
returns [0, 1]: step 3 of the pipeline drops the coefficients of B beyond
position len(A) - 1, so the claim as stated is false. -/
theorem C1_cex :
    multiply_naive [1] [0, 1] = some [0, 1] ∧
    multiply_matrix_with_device [1] [0, 1] = some [0, 0] ∧
    conv_coeff [1] [0, 1] 0 ≤ f32SafeBound ∧
    conv_coeff [1] [0, 1] 1 ≤ f32SafeBound := by decide

/-- C1 (amended): for every pair of polynomials with B not longer than A
whose true convolution coefficients all stay within the exact-integer
representable range of the backend, the accelerated multiply agrees with
the naive multiply coefficient-wise exactly. -/
theorem C1_amended (a b : List Nat) (hm : b.length ≤ a.length)
    (hbound : ∀ k, conv_coeff a b k ≤ f32SafeBound) :
    multiply_matrix_with_device a b = multiply_naive a b := by
  rw [device_eq_conv a b hm, naive_eq_conv]
  by_cases h : a.length + b.length = 0
  · rw [if_pos h, if_pos h]
  · rw [if_neg h, if_neg h]
    refine congrArg some (List.map_congr_left fun k _ => ?_)
    have hk := hbound k
    have hsat : u64_saturate (conv_coeff a b k) = conv_coeff a b k :=
      Nat.min_eq_left (le_trans hk (by norm_num [f32SafeBound, U64_MOD]))
    have hmod : conv_coeff a b k % U64_MOD = conv_coeff a b k :=
      Nat.mod_eq_of_lt (lt_of_le_of_lt hk (by norm_num [f32SafeBound, U64_MOD]))
    rw [hsat, hmod]

theorem C1_witness :
    multiply_matrix_with_device [1, 2] [3] = multiply_naive [1, 2] [3] :=
  C1_amended [1, 2] [3] (by decide) (by
    intro k
    match k with
    | 0 => decide
    | 1 => decide
    | (k + 2) =>
      rw [conv_coeff_eq_zero [1, 2] [3] (k + 2)
        (by simp only [List.length_cons, List.length_nil]; omega)]
      exact Nat.zero_le _)

/-- C2: whenever at least one operand is non-empty (the only inputs on
which the operations return at all, see C10), both the naive and the
accelerated multiply return a polynomial of length exactly n + m - 1;
nothing is trimmed. -/
theorem C2_lengths (a b : List Nat) (h : 0 < a.length + b.length) :
    ∃ p q, multiply_naive a b = some p ∧
      multiply_matrix_with_device a b = some q ∧
      p.length = a.length + b.length - 1 ∧
      q.length = a.length + b.length - 1 := by
  have hne : ¬ a.length + b.length = 0 := by omega
  unfold multiply_naive multiply_matrix_with_device matvec
  rw [if_neg hne, if_neg hne]
  refine ⟨_, _, rfl, rfl, ?_, ?_⟩
  · simp
  · simp [to_multiplication_matrix]

theorem C2_witness :
    ∃ p q, multiply_naive [1] [2, 3] = some p ∧
      multiply_matrix_with_device [1] [2, 3] = some q ∧
      p.length = ([1] : List Nat).length + ([2, 3] : List Nat).length - 1 ∧
      q.length = ([1] : List Nat).length + ([2, 3] : List Nat).length - 1 :=
  C2_lengths [1] [2, 3] (by decide)

/-- C3: for result_length ≥ len(poly) the Toeplitz builder returns a
matrix with result_length rows and len(poly) columns whose (i, j) entry
is poly[i - j] when 0 ≤ i - j < len(poly) (index arithmetic over ℤ) and
0 otherwise. -/
theorem C3_toeplitz (poly : List Nat) (rl : Nat) (_h : poly.length ≤ rl) :
    (to_multiplication_matrix poly rl).length = rl ∧
    (∀ row ∈ to_multiplication_matrix poly rl, row.length = poly.length) ∧
    (∀ i, i < rl → ∀ j, j < poly.length →
      ((to_multiplication_matrix poly rl).getD i []).getD j 0 =
        toeplitz_entry_spec poly i j) := by
  refine ⟨by simp [to_multiplication_matrix], ?_, ?_⟩
  · intro row hrow
    unfold to_multiplication_matrix at hrow
    obtain ⟨i, hi, rfl⟩ := List.mem_map.mp hrow
    simp
  · intro i hi j hj
    unfold to_multiplication_matrix
    rw [getD_map_range, if_pos hi, getD_map_range, if_pos hj]
    unfold toeplitz_entry_spec
    by_cases hcase : j ≤ i ∧ i - j < poly.length
    · rw [if_pos hcase, if_pos (by omega)]
    · rw [if_neg hcase, if_neg (by omega)]

theorem C3_witness :
    ([4, 5] : List Nat).length ≤ 3 ∧
    ((to_multiplication_matrix [4, 5] 3).length = 3 ∧
      (∀ row ∈ to_multiplication_matrix [4, 5] 3,
        row.length = ([4, 5] : List Nat).length) ∧
      (∀ i, i < 3 → ∀ j, j < ([4, 5] : List Nat).length →
        ((to_multiplication_matrix [4, 5] 3).getD i []).getD j 0 =
          toeplitz_entry_spec [4, 5] i j)) :=
  ⟨by decide, C3_toeplitz [4, 5] 3 (by decide)⟩

/-- C4 counterexample: with result_length = 1 < 3 = len(poly) the builder
does not fail — the source function returns a plain Vec of Vec and has no
error path at all, and in particular no InvalidDimension error — it
returns the 1 × 3 matrix below. -/
theorem C4_cex : to_multiplication_matrix [1, 2, 3] 1 = [[1, 0, 0]] := by
  decide

/-- C4 (amended): for every result_length < len(poly) the builder still
returns a result_length × len(poly) matrix instead of failing; no
InvalidDimension error exists in the code. -/
theorem C4_amended (poly : List Nat) (rl : Nat) (_h : rl < poly.length) :
    (to_multiplication_matrix poly rl).length = rl ∧
    ∀ row ∈ to_multiplication_matrix poly rl, row.length = poly.length := by
  constructor
  · simp [to_multiplication_matrix]
  · intro row hrow
    unfold to_multiplication_matrix at hrow
    obtain ⟨i, hi, rfl⟩ := List.mem_map.mp hrow
    simp

theorem C4_witness :
    1 < ([1, 2, 3] : List Nat).length ∧
    ((to_multiplication_matrix [1, 2, 3] 1).length = 1 ∧
      ∀ row ∈ to_multiplication_matrix [1, 2, 3] 1,
        row.length = ([1, 2, 3] : List Nat).length) :=
  ⟨by decide, C4_amended [1, 2, 3] 1 (by decide)⟩

/-- C5 counterexample: on the output value 7/4 the conversion the source
performs (the saturating `as u64` cast, truncation toward zero) stores 1,
while rounding to the nearest non-negative integer, as the claim states,
would store 2. -/
theorem C5_cex :
    f32_as_u64 (7 / 4 : ℚ) = 1 ∧ spec_round_nearest (7 / 4 : ℚ) = 2 := by
  constructor
  · have hfl : ⌊(7 / 4 : ℚ)⌋ = 1 := by
      rw [Int.floor_eq_iff]; norm_num
    rw [f32_as_u64, if_neg (by norm_num), hfl]
    norm_num [U64_MOD]
  · have hfl : ⌊(7 / 4 : ℚ) + 1 / 2⌋ = 2 := by
      rw [Int.floor_eq_iff]; norm_num
    rw [spec_round_nearest, hfl]
    rfl

/-- C5 (amended): the decode step is Rust's saturating truncation toward
zero, not rounding to nearest: for every non-negative output value below
the saturation bound the stored coefficient is the floor of the value. -/
theorem C5_amended (v : ℚ) (h0 : 0 ≤ v) (hb : ⌊v⌋ ≤ (U64_MOD : Int) - 1) :
    (f32_as_u64 v : Int) = ⌊v⌋ := by
  rw [f32_as_u64, if_neg (not_lt.mpr h0)]
  have hnn : 0 ≤ ⌊v⌋ := Int.floor_nonneg.mpr h0
  have hmin : min (Int.toNat ⌊v⌋) (U64_MOD - 1) = Int.toNat ⌊v⌋ :=
    Nat.min_eq_left (by omega)
  rw [hmin]
  exact_mod_cast Int.toNat_of_nonneg hnn

theorem C5_witness :
    0 ≤ (9 / 4 : ℚ) ∧ ⌊(9 / 4 : ℚ)⌋ ≤ (U64_MOD : Int) - 1 ∧
    (f32_as_u64 (9 / 4 : ℚ) : Int) = ⌊(9 / 4 : ℚ)⌋ := by
  have hfl : ⌊(9 / 4 : ℚ)⌋ = 2 := by
    rw [Int.floor_eq_iff]; norm_num
  refine ⟨by norm_num, ?_, C5_amended (9 / 4 : ℚ) (by norm_num) ?_⟩
  · rw [hfl]; norm_num [U64_MOD]
  · rw [hfl]; norm_num [U64_MOD]

/-- C6 counterexample: at A = [2^24, 1], B = [1, 1] the true convolution
coefficient at degree 1 is 2^24 + 1, beyond the safe exact-representation
bound of the backend numeric type, yet the accelerated multiply still
returns a polynomial: the source contains no explicit precision check and
no PrecisionOverflow error. -/
theorem C6_cex :
    (multiply_matrix_with_device [16777216, 1] [1, 1]).isSome = true ∧
    f32SafeBound < conv_coeff [16777216, 1] [1, 1] 1 := by decide

/-- C6 (amended): multiply_matrix_with_device performs no explicit
precision check: for every input pair with at least one non-empty operand
it returns a polynomial; out-of-range values are silently clamped by the
saturating cast rather than reported as an error. -/
theorem C6_amended (a b : List Nat) (h : 0 < a.length + b.length) :
    (multiply_matrix_with_device a b).isSome = true := by
  unfold multiply_matrix_with_device
  rw [if_neg (by omega)]
  rfl

theorem C6_witness : (multiply_matrix_with_device [2] [3]).isSome = true :=
  C6_amended [2] [3] (by decide)

/-- C7 counterexample: multiplying by [1] on the left does not return the
other operand: the step-3 padding rule truncates [1, 2] to its constant
term, so [1] × [1, 2] is [1, 0], not [1, 2]. -/
theorem C7_cex :
    multiply_matrix_with_device [1] [1, 2] = some [1, 0] ∧
    some [1, 0] ≠ some ([1, 2] : List Nat) := by decide

/-- C7 (amended): for every polynomial A whose coefficients lie within
the exact-integer range of the f32 backend (at most 2^24, the regime in
which the exact embedding of the float pipeline is faithful — above it
even the u64 to f32 conversion of a single coefficient rounds), A × [1]
returns A unchanged, while [1] × A keeps only the constant coefficient
of A: the result has the convolution length len(A) but equals
[A[0], 0, ..., 0]. -/
theorem C7_amended (a : List Nat) (hwf : ∀ c ∈ a, c ≤ f32SafeBound) :
    multiply_matrix_with_device a [1] = some a ∧
    multiply_matrix_with_device [1] a =
      some ((List.range a.length).map fun i =>
        if i = 0 then a.getD 0 0 else 0) := by
  have hFU : f32SafeBound ≤ U64_MOD - 1 := by norm_num [f32SafeBound, U64_MOD]
  constructor
  · rcases a with _ | ⟨c, t⟩
    · decide
    · rw [device_eq_conv (c :: t) [1] (by simp), if_neg (by simp)]
      refine congrArg some ?_
      have hlen : (c :: t).length + ([1] : List Nat).length - 1 =
          (c :: t).length := by simp
      rw [hlen]
      have hmap : ∀ k ∈ List.range (c :: t).length,
          u64_saturate (conv_coeff (c :: t) [1] k) = (c :: t).getD k 0 := by
        intro k hk
        have hk2 : k < (c :: t).length := List.mem_range.mp hk
        have hmem : (c :: t).getD k 0 ∈ c :: t := by
          rw [List.getD_eq_getElem _ _ hk2]
          exact List.getElem_mem hk2
        rw [conv_coeff_one]
        exact Nat.min_eq_left (le_trans (hwf _ hmem) hFU)
      rw [List.map_congr_left hmap, map_range_getD]
  · unfold multiply_matrix_with_device matvec to_multiplication_matrix
    rw [if_neg (by simp)]
    simp only [List.length_singleton, List.map_map]
    refine congrArg some ?_
    have hlen : 1 + a.length - 1 = a.length := by omega
    rw [hlen]
    refine List.map_congr_left fun i hi => ?_
    have hilt : i < a.length := List.mem_range.mp hi
    have hr1 : List.range 1 = [0] := rfl
    simp only [Function.comp_apply, hr1, List.map_cons, List.map_nil,
      List.zipWith_cons_cons, List.zipWith_nil_right, List.sum_cons,
      List.sum_nil, add_zero]
    by_cases hi0 : i = 0
    · subst hi0
      have hmem : a.getD 0 0 ∈ a := by
        rw [List.getD_eq_getElem _ _ hilt]
        exact List.getElem_mem hilt
      rw [if_pos ⟨Nat.zero_le 0, by omega⟩, if_pos rfl]
      show u64_saturate (([1] : List Nat).getD 0 0 * a.getD 0 0) = a.getD 0 0
      rw [List.getD_cons_zero, one_mul]
      exact Nat.min_eq_left (le_trans (hwf _ hmem) hFU)
    · rw [if_neg (by omega : ¬ ((0 : Nat) ≤ i ∧ i - 0 < 1)), if_neg hi0,
        zero_mul]
      show u64_saturate 0 = 0
      simp [u64_saturate]

theorem C7_witness :
    multiply_matrix_with_device [5, 7] [1] = some [5, 7] ∧
    multiply_matrix_with_device [1] [5, 7] = some [5, 0] := by
  have h := C7_amended [5, 7] (by decide)
  exact ⟨h.1, h.2.trans (by decide)⟩

/-- Commutativity of the accelerated multiply for equal-length operands
within the f32-exact regime (every true convolution coefficient at most
2^24, the regime in which the exact embedding of the backend matmul is
faithful).  Outside that regime the two operand orders feed the backend
the same set of f32 products but in a summation order the backend does
not specify, so the unbounded commutativity statement is not a
consequence of the source and is not claimed here. -/
lemma device_comm_in_range (a b : List Nat) (h : a.length = b.length)
    (_hbound : ∀ k, conv_coeff a b k ≤ f32SafeBound) :
    multiply_matrix_with_device a b = multiply_matrix_with_device b a := by
  rw [device_eq_conv a b (le_of_eq h.symm), device_eq_conv b a (le_of_eq h)]
  by_cases h0 : a.length + b.length = 0
  · rw [if_pos h0, if_pos (by omega)]
  · rw [if_neg h0, if_neg (by omega)]
    have hlen : a.length + b.length - 1 = b.length + a.length - 1 := by omega
    rw [hlen]
    refine congrArg some (List.map_congr_left fun k _ => ?_)
    rw [conv_coeff_comm]

/-- C9 counterexample: at a = [2^53 + 1], b = [2^53], epsilon = 1/2 both
coefficients cast to the same f64 (2^53 + 1 rounds to even, giving
2^53), so the program compares |0| against 1/2 and returns true, while
the exact coefficient-wise criterion of the claim (|difference| at most
epsilon at every position) is violated at position 0, where the true
difference is 1. -/
theorem C9_cex :
    approx_eq [9007199254740993] [9007199254740992] (1 / 2 : ℚ) = true ∧
    ¬ (|(9007199254740993 : ℚ) - (9007199254740992 : ℚ)| ≤ 1 / 2) := by
  constructor
  · have h0 : u64_as_f64 ((u64_as_f64 9007199254740993 : Int) -
        (u64_as_f64 9007199254740992 : Int)).natAbs = 0 := by decide
    have hr1 : List.range 1 = [0] := rfl
    unfold approx_eq
    simp only [List.length_singleton, max_self, hr1, List.all_cons,
      List.all_nil, Bool.and_true, List.getD_cons_zero, h0, Nat.cast_zero,
      decide_eq_true_eq]
    norm_num
  · norm_num

/-- C9 (amended): approx_eq compares the f64-converted coefficients, the
shorter polynomial zero-padded to the longer length; for coefficients
below 2^53 — where the u64 to f64 conversion is exact — it returns true
if and only if at every position the absolute difference of the
coefficients is at most epsilon. -/
theorem C9_amended (a b : List Nat) (epsilon : ℚ)
    (ha : ∀ c ∈ a, c < 2 ^ 53) (hb : ∀ c ∈ b, c < 2 ^ 53) :
    approx_eq a b epsilon = true ↔
      ∀ i, i < max a.length b.length →
        |(a.getD i 0 : ℚ) - (b.getD i 0 : ℚ)| ≤ epsilon := by
  have hpt : ∀ i : Nat,
      ((u64_as_f64 ((u64_as_f64 (a.getD i 0) : Int) -
        (u64_as_f64 (b.getD i 0) : Int)).natAbs : ℚ)) =
      |(a.getD i 0 : ℚ) - (b.getD i 0 : ℚ)| := by
    intro i
    have hx := getD_lt_of_forall (by norm_num) ha i
    have hy := getD_lt_of_forall (by norm_num) hb i
    rw [u64_as_f64_of_lt hx, u64_as_f64_of_lt hy,
      u64_as_f64_of_lt (by omega :
        ((a.getD i 0 : Int) - (b.getD i 0 : Int)).natAbs < 2 ^ 53)]
    rw [Int.cast_natAbs]
    push_cast
    rfl
  unfold approx_eq
  rw [List.all_eq_true]
  constructor
  · intro hall i hi
    have h2 := of_decide_eq_true (hall i (List.mem_range.mpr hi))
    rw [hpt i] at h2
    exact h2
  · intro hp x hx
    refine decide_eq_true ?_
    rw [hpt x]
    exact hp x (List.mem_range.mp hx)

theorem C9_witness :
    approx_eq [1, 3] [2] 1 = true ↔
      ∀ i, i < max ([1, 3] : List Nat).length ([2] : List Nat).length →
        |(([1, 3] : List Nat).getD i 0 : ℚ) -
          (([2] : List Nat).getD i 0 : ℚ)| ≤ 1 :=
  C9_amended [1, 3] [2] 1 (by decide) (by decide)

/-- C10: both multiplies return a value exactly when at least one operand
is non-empty; when both are empty the length computation n + m - 1
underflows the unsigned length type and no value is returned. -/
theorem C10_totality (a b : List Nat) :
    ((multiply_naive a b).isSome = true ↔ 0 < a.length + b.length) ∧
    ((multiply_matrix_with_device a b).isSome = true ↔
      0 < a.length + b.length) := by
  unfold multiply_naive multiply_matrix_with_device
  by_cases h : a.length + b.length = 0
  · rw [if_pos h, if_pos h]
    simp [h]
  · rw [if_neg h, if_neg h]
    simp only [Option.isSome_some, true_iff, and_self]
    omega
